import Mathlib

/-!
Verification of the route-ordering and day-segmentation engine of the
sequential-map-routes repository.

The embedding mirrors the TypeScript sources:
  * `distanceMeters`        — src/lib/distance.ts (haversine great-circle distance)
  * `findClosestRouteIndex` — src/lib/routeSegments.ts (closest-vertex projection)
  * `getRouteSegmentsByDay` — src/lib/routeSegments.ts (per-day partitioner)
  * `orderByNearestFromStart` — src/lib/orderStops.ts (greedy nearest-neighbor sequencer)
  * `STOPS_PER_DAY`         — src/constants/itinerary.ts

JavaScript numbers are modelled as real numbers; JS arrays as `List`;
array indices as `Nat`; day numbers as `Int` (the code never validates them).
`Math.atan2` is modelled by the piecewise definition `atan2` below, matching
the JS specification on the quadrants this code can reach.
-/

namespace RouteCore

open Real

/-- A geographic coordinate pair `[lng, lat]` in degrees, as in the source. -/
abbrev Point : Type := ℝ × ℝ

/-- `Math.atan2 y x` of JavaScript, modelled piecewise over the reals. -/
noncomputable def atan2 (y x : ℝ) : ℝ :=
  if 0 < x then Real.arctan (y / x)
  else if x < 0 then
    (if 0 ≤ y then Real.arctan (y / x) + Real.pi else Real.arctan (y / x) - Real.pi)
  else
    (if 0 < y then Real.pi / 2 else if y < 0 then -(Real.pi / 2) else 0)

/-- The haversine intermediate value `x` of `distanceMeters` in
src/lib/distance.ts:
`sin(dLat/2)^2 + cos(lat1*π/180) * cos(lat2*π/180) * sin(dLng/2)^2`. -/
noncomputable def haversineX (a b : Point) : ℝ :=
  let dLat := (b.2 - a.2) * Real.pi / 180
  let dLng := (b.1 - a.1) * Real.pi / 180
  Real.sin (dLat / 2) ^ 2 +
    Real.cos (a.2 * Real.pi / 180) * Real.cos (b.2 * Real.pi / 180) *
      Real.sin (dLng / 2) ^ 2

/-- Haversine distance in meters between two `[lng, lat]` points
(src/lib/distance.ts), on a sphere of radius 6371000 m. -/
noncomputable def distanceMeters (a b : Point) : ℝ :=
  2 * 6371000 * atan2 (Real.sqrt (haversineX a b)) (Real.sqrt (1 - haversineX a b))

/-- The running-minimum scan shared by `findClosestRouteIndex` and the inner
loop of `orderByNearestFromStart`: starting from state `(bi, bd)` at position
`i`, fold over the rest of the list keeping the index of the first strictly
smaller value. Returns the final `(bestIndex, bestDist)` pair. -/
noncomputable def scanMinFrom {T : Type} (f : T → ℝ) : List T → ℕ → ℕ → ℝ → ℕ × ℝ
  | [], _, bi, bd => (bi, bd)
  | t :: rest, i, bi, bd =>
    if f t < bd then scanMinFrom f rest (i + 1) i (f t)
    else scanMinFrom f rest (i + 1) bi bd

/-- `findClosestRouteIndex` of src/lib/routeSegments.ts: index of the polyline
vertex closest to `point` (first minimum wins); `0` for an empty polyline. -/
noncomputable def findClosestRouteIndex (routeCoords : List Point) (point : Point) : ℕ :=
  match routeCoords with
  | [] => 0
  | c :: rest =>
    (scanMinFrom (fun q => distanceMeters q point) rest 1 0 (distanceMeters c point)).1

/-- A marker as consumed by the partitioner: `{ coords: [number, number] }`. -/
structure Marker where
  coords : Point

/-- A day-tagged polyline piece (`RouteSegment` of src/types/route.ts). -/
structure RouteSegment where
  coords : List Point
  day : ℤ

/-- `STOPS_PER_DAY` of src/constants/itinerary.ts. -/
def STOPS_PER_DAY : ℕ := 1

/-- Day of the segment starting at stop `i`:
`stopDays[i] ?? Math.floor(i / STOPS_PER_DAY) + 1` in the source. -/
def dayFor (stopDays : List ℤ) (i : ℕ) : ℤ :=
  (stopDays.getD i (((i / STOPS_PER_DAY : ℕ) : ℤ) + 1))

/-- The tail of the monotonicity-enforcement pass of `getRouteSegmentsByDay`:
`if (indices[i] <= indices[i-1]) indices[i] = Math.min(indices[i-1] + 1, routeCoords.length - 1)`
expressed as a forward pass carrying the previous enforced index. -/
def enforceFrom (last : ℕ) : ℕ → List ℕ → List ℕ
  | _, [] => []
  | prev, y :: ys =>
    let y2 := if y ≤ prev then min (prev + 1) last else y
    y2 :: enforceFrom last y2 ys

/-- The full monotonicity-enforcement pass (the first element is untouched). -/
def enforceMonotone (last : ℕ) : List ℕ → List ℕ
  | [] => []
  | x :: xs => x :: enforceFrom last x xs

/-- The final defensive clamp of `getRouteSegmentsByDay`:
`if (indices[indices.length - 1] >= routeCoords.length) indices[...] = routeCoords.length - 1`. -/
def clampLast (n : ℕ) (l : List ℕ) : List ℕ :=
  match l.getLast? with
  | none => l
  | some k => if n ≤ k then l.dropLast ++ [n - 1] else l

/-- The enforced projected index sequence computed by `getRouteSegmentsByDay`:
project every marker onto the polyline, run the monotonicity-enforcement pass,
then the final clamp. -/
noncomputable def enforcedIndices (routeCoords : List Point) (markers : List Marker) : List ℕ :=
  clampLast routeCoords.length
    (enforceMonotone (routeCoords.length - 1)
      (markers.map (fun m => findClosestRouteIndex routeCoords m.coords)))

/-- Body of the segment-emission loop of `getRouteSegmentsByDay` at loop
counter `i`: with `start = indices[i]` and `end = indices[i+1]`, emit
`routeCoords.slice(start, end + 1)` tagged with `dayFor stopDays i` when
`end > start && start < routeCoords.length` and the slice has ≥ 2 points. -/
def segmentAt (routeCoords : List Point) (stopDays : List ℤ) (idxs : List ℕ) (i : ℕ) :
    Option RouteSegment :=
  let a := idxs.getD i 0
  let b := idxs.getD (i + 1) 0
  if b > a ∧ a < routeCoords.length then
    let coords := (routeCoords.drop a).take (b - a + 1)
    if 2 ≤ coords.length then some ⟨coords, dayFor stopDays i⟩ else none
  else none

/-- `getRouteSegmentsByDay` of src/lib/routeSegments.ts: guard the degenerate
inputs, compute the enforced projected indices, then emit one optional segment
per consecutive stop pair `i = 0 .. markers.length - 2`. -/
noncomputable def getRouteSegmentsByDay (routeCoords : List Point) (markers : List Marker)
    (stopDays : List ℤ) : List RouteSegment :=
  if routeCoords.length < 2 ∨ markers.length < 2 then []
  else
    (List.range (markers.length - 1)).filterMap
      (segmentAt routeCoords stopDays (enforcedIndices routeCoords markers))

/-- The greedy selection loop of `orderByNearestFromStart`, with an explicit
fuel equal to the number of remaining items (the JS `while` loop removes
exactly one item per iteration, so the fuel never runs out). -/
noncomputable def orderLoopFuel {T : Type} (coords : T → Point) :
    ℕ → Point → List T → List T
  | 0, _, _ => []
  | _ + 1, _, [] => []
  | n + 1, current, r0 :: rs =>
    let bi := (scanMinFrom (fun t => distanceMeters current (coords t)) rs 1 0
      (distanceMeters current (coords r0))).1
    let next := (r0 :: rs).getD bi r0
    next :: orderLoopFuel coords n (coords next) ((r0 :: rs).eraseIdx bi)

/-- `orderByNearestFromStart` of src/lib/orderStops.ts: greedy nearest-next
ordering from the first item. The TS function is generic over
`T extends { coords: [number, number] }`; the structural field access is
modelled by the projection `coords`. -/
noncomputable def orderByNearestFromStart {T : Type} (coords : T → Point) (items : List T) :
    List T :=
  if items.length ≤ 2 then items
  else
    match items with
    | [] => []
    | start :: rest => start :: orderLoopFuel coords rest.length (coords start) rest

/-- The spec's synthetic straight-line polyline of 10 evenly spaced points
from `(0,0)` to `(0,9)` (degrees; `[lng, lat]`). -/
def poly10 : List Point :=
  [((0:ℝ), (0:ℝ)), (0, 1), (0, 2), (0, 3), (0, 4), (0, 5), (0, 6), (0, 7), (0, 8), (0, 9)]

/-- The spec's three stops, located exactly at polyline vertices 0, 4 and 9. -/
def stops3 : List Marker := [⟨((0:ℝ), (0:ℝ))⟩, ⟨(0, 4)⟩, ⟨(0, 9)⟩]

/-- The spec's day assignment `{0:1, 1:1, 2:2}`. -/
def scenDays : List ℤ := [1, 1, 2]

/-- The day assignment whose entry for every stop index `i` is the
partitioner's own default `Math.floor(i / STOPS_PER_DAY) + 1`. -/
def defaultDayAssignment (n : ℕ) : List ℤ :=
  (List.range n).map (fun i => (((i / STOPS_PER_DAY : ℕ) : ℤ) + 1))

/-- A two-point polyline used to exhibit an empty partition of a
non-degenerate input. -/
def poly2 : List Point := [((0:ℝ), (0:ℝ)), (0, 1)]

/-- Two stops both located at the last vertex of `poly2`. -/
def stopsSame : List Marker := [⟨((0:ℝ), (1:ℝ))⟩, ⟨(0, 1)⟩]

/-- The haversine intermediate value, written over arbitrary angles:
`sin ((v - u) / 2) ^ 2 + cos u * cos v * sin w ^ 2` is nonnegative. -/
theorem trigX_nonneg (u v w : ℝ) :
    0 ≤ Real.sin ((v - u) / 2) ^ 2 + Real.cos u * Real.cos v * Real.sin w ^ 2 := by
  have h1 := Real.sin_sq_add_cos_sq u
  have h2 := Real.sin_sq_add_cos_sq v
  have hs : Real.sin ((v - u) / 2) ^ 2 = 1 / 2 - Real.cos (v - u) / 2 := by
    have h := Real.sin_sq_eq_half_sub ((v - u) / 2)
    rw [show 2 * ((v - u) / 2) = v - u by ring] at h
    exact h
  have hc : Real.cos (v - u) = Real.cos v * Real.cos u + Real.sin v * Real.sin u :=
    Real.cos_sub v u
  have hw : Real.sin w ^ 2 = 1 / 2 - Real.cos (2 * w) / 2 := Real.sin_sq_eq_half_sub w
  have hE1 : Real.cos (2 * w) ≤ 1 := Real.cos_le_one _
  have hE2 : -1 ≤ Real.cos (2 * w) := Real.neg_one_le_cos _
  nlinarith [sq_nonneg (Real.sin u - Real.sin v), sq_nonneg (Real.sin u + Real.sin v),
    mul_nonneg (sq_nonneg (Real.cos u - Real.cos v)) (by linarith : (0:ℝ) ≤ 1 + Real.cos (2 * w)),
    mul_nonneg (sq_nonneg (Real.cos u + Real.cos v)) (by linarith : (0:ℝ) ≤ 1 - Real.cos (2 * w))]

/-- The haversine intermediate value, written over arbitrary angles, is ≤ 1. -/
theorem trigX_le_one (u v w : ℝ) :
    Real.sin ((v - u) / 2) ^ 2 + Real.cos u * Real.cos v * Real.sin w ^ 2 ≤ 1 := by
  have h1 := Real.sin_sq_add_cos_sq u
  have h2 := Real.sin_sq_add_cos_sq v
  have hs : Real.sin ((v - u) / 2) ^ 2 = 1 / 2 - Real.cos (v - u) / 2 := by
    have h := Real.sin_sq_eq_half_sub ((v - u) / 2)
    rw [show 2 * ((v - u) / 2) = v - u by ring] at h
    exact h
  have hc : Real.cos (v - u) = Real.cos v * Real.cos u + Real.sin v * Real.sin u :=
    Real.cos_sub v u
  have hw : Real.sin w ^ 2 = 1 / 2 - Real.cos (2 * w) / 2 := Real.sin_sq_eq_half_sub w
  have hE1 : Real.cos (2 * w) ≤ 1 := Real.cos_le_one _
  have hE2 : -1 ≤ Real.cos (2 * w) := Real.neg_one_le_cos _
  nlinarith [sq_nonneg (Real.sin u - Real.sin v), sq_nonneg (Real.sin u + Real.sin v),
    mul_nonneg (sq_nonneg (Real.cos u - Real.cos v)) (by linarith : (0:ℝ) ≤ 1 + Real.cos (2 * w)),
    mul_nonneg (sq_nonneg (Real.cos u + Real.cos v)) (by linarith : (0:ℝ) ≤ 1 - Real.cos (2 * w))]

/-- `haversineX` unfolded to the generic angle form. -/
theorem haversineX_eq (a b : Point) :
    haversineX a b =
      Real.sin ((b.2 * Real.pi / 180 - a.2 * Real.pi / 180) / 2) ^ 2 +
        Real.cos (a.2 * Real.pi / 180) * Real.cos (b.2 * Real.pi / 180) *
          Real.sin (((b.1 - a.1) * Real.pi / 180) / 2) ^ 2 := by
  simp only [haversineX]
  rw [show (b.2 - a.2) * Real.pi / 180 / 2
      = (b.2 * Real.pi / 180 - a.2 * Real.pi / 180) / 2 by ring]

/-- The haversine intermediate value of the source lies in `[0, 1]`. -/
theorem haversineX_nonneg (a b : Point) : 0 ≤ haversineX a b := by
  rw [haversineX_eq]; exact trigX_nonneg _ _ _

/-- The haversine intermediate value of the source is at most `1`. -/
theorem haversineX_le_one (a b : Point) : haversineX a b ≤ 1 := by
  rw [haversineX_eq]; exact trigX_le_one _ _ _

/-- `atan2` of nonnegative arguments is nonnegative. -/
theorem atan2_nonneg {y x : ℝ} (hy : 0 ≤ y) (hx : 0 ≤ x) : 0 ≤ atan2 y x := by
  unfold atan2
  by_cases hx0 : 0 < x
  · rw [if_pos hx0]
    have h := Real.arctan_strictMono.monotone (div_nonneg hy (le_of_lt hx0))
    rwa [Real.arctan_zero] at h
  · have hx1 : x = 0 := le_antisymm (not_lt.mp hx0) hx
    subst hx1
    rw [if_neg hx0, if_neg (lt_irrefl 0)]
    by_cases hy0 : 0 < y
    · rw [if_pos hy0]
      positivity
    · rw [if_neg hy0, if_neg (by linarith : ¬ y < 0)]

/-- `atan2` of a positive first and nonnegative second argument is positive. -/
theorem atan2_pos {y x : ℝ} (hy : 0 < y) (hx : 0 ≤ x) : 0 < atan2 y x := by
  unfold atan2
  by_cases hx0 : 0 < x
  · rw [if_pos hx0]
    have h := Real.arctan_strictMono (div_pos hy hx0)
    rwa [Real.arctan_zero] at h
  · have hx1 : x = 0 := le_antisymm (not_lt.mp hx0) hx
    subst hx1
    rw [if_neg hx0, if_neg (lt_irrefl 0), if_pos hy]
    positivity

/-- The distance function never returns a negative value. -/
theorem distanceMeters_nonneg (a b : Point) : 0 ≤ distanceMeters a b := by
  unfold distanceMeters
  have h := atan2_nonneg (Real.sqrt_nonneg (haversineX a b))
    (Real.sqrt_nonneg (1 - haversineX a b))
  positivity

/-- For bit-identical points the distance is exactly `0`. -/
theorem distanceMeters_self (a : Point) : distanceMeters a a = 0 := by
  have hx : haversineX a a = 0 := by
    simp [haversineX]
  unfold distanceMeters
  rw [hx]
  have h1 : Real.sqrt 0 = 0 := Real.sqrt_zero
  have h2 : Real.sqrt (1 - 0) = 1 := by norm_num
  rw [h1, h2]
  unfold atan2
  rw [if_pos (by norm_num : (0:ℝ) < 1)]
  norm_num

/-- Two points on the same meridian with distinct latitudes less than 180
degrees apart are at strictly positive distance. -/
theorem distanceMeters_pos_lat {g la lb : ℝ} (hne : la ≠ lb) (hlt : |lb - la| < 180) :
    0 < distanceMeters (g, la) (g, lb) := by
  have hπ := Real.pi_pos
  set t : ℝ := (lb - la) * Real.pi / 180 / 2 with ht
  have htabs : |t| < Real.pi / 2 := by
    rw [ht, show (lb - la) * Real.pi / 180 / 2 = (lb - la) * (Real.pi / 360) by ring,
      abs_mul, abs_of_pos (by positivity : (0:ℝ) < Real.pi / 360)]
    calc |lb - la| * (Real.pi / 360) < 180 * (Real.pi / 360) := by
          apply mul_lt_mul_of_pos_right hlt
          positivity
      _ = Real.pi / 2 := by ring
  have ht0 : t ≠ 0 := by
    rw [ht]
    intro h
    have h2 : (lb - la) * Real.pi = 0 := by linarith
    rcases mul_eq_zero.mp h2 with h3 | h3
    · exact hne (sub_eq_zero.mp h3).symm
    · exact absurd h3 (ne_of_gt hπ)
  have hsin0 : Real.sin t ≠ 0 := by
    intro h
    apply ht0
    have h1 : -Real.pi < t := by
      have := abs_lt.mp htabs
      linarith [this.1]
    have h2 : t < Real.pi := by
      have := abs_lt.mp htabs
      linarith [this.2]
    exact (Real.sin_eq_zero_iff_of_lt_of_lt h1 h2).mp h
  have hcospos : 0 < Real.cos t := by
    apply Real.cos_pos_of_mem_Ioo
    constructor
    · linarith [(abs_lt.mp htabs).1]
    · linarith [(abs_lt.mp htabs).2]
  have hx : haversineX (g, la) (g, lb) = Real.sin t ^ 2 := by
    simp only [haversineX]
    rw [show ((g : ℝ) - g) * Real.pi / 180 = 0 by ring]
    simp [ht]
  have hxpos : 0 < haversineX (g, la) (g, lb) := by
    rw [hx]
    positivity
  have hxlt : haversineX (g, la) (g, lb) < 1 := by
    rw [hx]
    have := Real.sin_sq_add_cos_sq t
    nlinarith [sq_nonneg (Real.cos t), hcospos]
  unfold distanceMeters
  have h := atan2_pos (Real.sqrt_pos.mpr hxpos)
    (le_of_lt (Real.sqrt_pos.mpr (by linarith : 0 < 1 - haversineX (g, la) (g, lb))))
  positivity

/-- `getD` agrees with `getElem` inside the bounds. -/
theorem getD_eq_getElem {T : Type} (L : List T) (d0 : T) {i : ℕ} (h : i < L.length) :
    L.getD i d0 = L[i] := by
  simp [List.getD_eq_getElem?_getD, List.getElem?_eq_getElem h]

/-- Full specification of the running-minimum scan: starting from a valid
state, it returns the position of the first element realizing the minimum of
the whole list (accumulator included). -/
theorem scanMinFrom_spec {T : Type} (f : T → ℝ) (d0 : T) (L : List T) :
    ∀ (l : List T) (i0 bi : ℕ) (bd : ℝ),
      L.drop i0 = l → bi < i0 → bi < L.length →
      bd = f (L.getD bi d0) →
      (∀ j, j < i0 → j < L.length → bd ≤ f (L.getD j d0)) →
      (∀ j, j < bi → bd < f (L.getD j d0)) →
      (scanMinFrom f l i0 bi bd).1 < L.length ∧
      (scanMinFrom f l i0 bi bd).2 = f (L.getD (scanMinFrom f l i0 bi bd).1 d0) ∧
      (∀ j, j < L.length → (scanMinFrom f l i0 bi bd).2 ≤ f (L.getD j d0)) ∧
      (∀ j, j < (scanMinFrom f l i0 bi bd).1 →
        (scanMinFrom f l i0 bi bd).2 < f (L.getD j d0)) := by
  intro l
  induction l with
  | nil =>
    intro i0 bi bd hdrop hbii hbiL hbd hmin hlt
    simp only [scanMinFrom]
    have hlen : L.length ≤ i0 := by
      have h := congrArg List.length hdrop
      simp only [List.length_drop, List.length_nil] at h
      omega
    exact ⟨hbiL, hbd, fun j hj => hmin j (lt_of_lt_of_le hj hlen) hj, hlt⟩
  | cons x xs ih =>
    intro i0 bi bd hdrop hbii hbiL hbd hmin hlt
    have hi0len : i0 < L.length := by
      have h := congrArg List.length hdrop
      simp only [List.length_drop, List.length_cons] at h
      omega
    have hcons : L[i0] :: L.drop (i0 + 1) = x :: xs :=
      (List.drop_eq_getElem_cons hi0len).symm.trans hdrop
    have hx1 : L[i0] = x := by injection hcons
    have hx2 : L.drop (i0 + 1) = xs := by injection hcons
    have hgetD : L.getD i0 d0 = x := by rw [getD_eq_getElem L d0 hi0len, hx1]
    simp only [scanMinFrom]
    by_cases hcmp : f x < bd
    · rw [if_pos hcmp]
      apply ih (i0 + 1) i0 (f x) hx2 (Nat.lt_succ_self i0) hi0len (by rw [hgetD])
      · intro j hj hjL
        rcases Nat.lt_succ_iff_lt_or_eq.mp hj with hj' | hj'
        · exact le_of_lt (lt_of_lt_of_le hcmp (hmin j hj' hjL))
        · subst hj'; rw [hgetD]
      · intro j hj
        exact lt_of_lt_of_le hcmp (hmin j hj (lt_trans hj hi0len))
    · rw [if_neg hcmp]
      apply ih (i0 + 1) bi bd hx2 (Nat.lt_succ_of_lt hbii) hbiL hbd
      · intro j hj hjL
        rcases Nat.lt_succ_iff_lt_or_eq.mp hj with hj' | hj'
        · exact hmin j hj' hjL
        · subst hj'; rw [hgetD]; exact not_lt.mp hcmp
      · exact hlt

/-- `findClosestRouteIndex` on a nonempty polyline returns an in-range index
whose vertex realizes the minimum distance, strictly beating every earlier
vertex (first minimum wins). -/
theorem findClosestRouteIndex_spec (rc : List Point) (p : Point) (hne : rc ≠ []) :
    findClosestRouteIndex rc p < rc.length ∧
    (∀ j, j < rc.length →
      distanceMeters (rc.getD (findClosestRouteIndex rc p) default) p ≤
        distanceMeters (rc.getD j default) p) ∧
    (∀ j, j < findClosestRouteIndex rc p →
      distanceMeters (rc.getD (findClosestRouteIndex rc p) default) p <
        distanceMeters (rc.getD j default) p) := by
  match rc with
  | [] => exact absurd rfl hne
  | c :: rest =>
    have h := scanMinFrom_spec (fun q => distanceMeters q p) default (c :: rest) rest 1 0
      (distanceMeters c p) (by simp) (by omega) (by simp) (by simp)
      (by intro j hj _; interval_cases j; simp) (by omega)
    have hdef : findClosestRouteIndex (c :: rest) p
        = (scanMinFrom (fun q => distanceMeters q p) rest 1 0 (distanceMeters c p)).1 := rfl
    rw [hdef]
    refine ⟨h.1, fun j hj => ?_, fun j hj => ?_⟩
    · have := h.2.2.1 j hj
      rw [h.2.1] at this
      exact this
    · have := h.2.2.2 j hj
      rw [h.2.1] at this
      exact this

/-- If vertex `k` realizes the minimum distance and strictly beats every
earlier vertex, `findClosestRouteIndex` returns exactly `k`. -/
theorem findClosestRouteIndex_eq_of (rc : List Point) (p : Point) (k : ℕ) (hk : k < rc.length)
    (hmin : ∀ j, j < rc.length →
      distanceMeters (rc.getD k default) p ≤ distanceMeters (rc.getD j default) p)
    (hstrict : ∀ j, j < k →
      distanceMeters (rc.getD k default) p < distanceMeters (rc.getD j default) p) :
    findClosestRouteIndex rc p = k := by
  have hne : rc ≠ [] := by
    intro h
    subst h
    simp at hk
  obtain ⟨h1, h2, h3⟩ := findClosestRouteIndex_spec rc p hne
  rcases lt_trichotomy (findClosestRouteIndex rc p) k with h | h | h
  · have ha := hstrict _ h
    have hb := h2 k hk
    linarith
  · exact h
  · have ha := h3 k h
    have hb := hmin _ h1
    linarith

/-- The enforcement pass preserves the list length. -/
theorem enforceFrom_length (last : ℕ) (prev : ℕ) (l : List ℕ) :
    (enforceFrom last prev l).length = l.length := by
  induction l generalizing prev with
  | nil => rfl
  | cons y ys ih => simp [enforceFrom, ih]

/-- The monotonicity-enforcement pass preserves the list length. -/
theorem enforceMonotone_length (last : ℕ) (l : List ℕ) :
    (enforceMonotone last l).length = l.length := by
  cases l with
  | nil => rfl
  | cons x xs => simp [enforceMonotone, enforceFrom_length]

/-- The final clamp preserves the list length. -/
theorem clampLast_length (n : ℕ) (l : List ℕ) : (clampLast n l).length = l.length := by
  unfold clampLast
  cases hlast : l.getLast? with
  | none => rfl
  | some k =>
    have hne : l ≠ [] := by
      intro h
      subst h
      simp at hlast
    have hlen : 1 ≤ l.length := by
      cases l with
      | nil => exact absurd rfl hne
      | cons a as => simp
    show (if n ≤ k then l.dropLast ++ [n - 1] else l).length = l.length
    by_cases hcmp : n ≤ k
    · rw [if_pos hcmp]
      simp only [List.length_append, List.length_dropLast, List.length_cons, List.length_nil]
      omega
    · rw [if_neg hcmp]

/-- The enforced projected index sequence has one entry per marker. -/
theorem enforcedIndices_length (rc : List Point) (markers : List Marker) :
    (enforcedIndices rc markers).length = markers.length := by
  unfold enforcedIndices
  rw [clampLast_length, enforceMonotone_length, List.length_map]

/-- The enforcement pass started below `last` on inputs bounded by `last`
yields a bounded, non-decreasing chain from `prev`. -/
theorem enforceFrom_spec (last : ℕ) (l : List ℕ) :
    ∀ prev, prev ≤ last → (∀ y ∈ l, y ≤ last) →
      (∀ z ∈ enforceFrom last prev l, z ≤ last) ∧
      List.Chain (· ≤ ·) prev (enforceFrom last prev l) := by
  induction l with
  | nil => intro prev _ _; simp [enforceFrom]
  | cons y ys ih =>
    intro prev hprev hl
    have hy : y ≤ last := hl y (List.mem_cons_self y ys)
    have hys : ∀ z ∈ ys, z ≤ last := fun z hz => hl z (List.mem_cons_of_mem y hz)
    simp only [enforceFrom]
    by_cases hcmp : y ≤ prev
    · rw [if_pos hcmp]
      have h1 : min (prev + 1) last ≤ last := min_le_right _ _
      have h2 : prev ≤ min (prev + 1) last := by omega
      obtain ⟨hb, hc⟩ := ih (min (prev + 1) last) h1 hys
      constructor
      · intro z hz
        rcases List.mem_cons.mp hz with hz' | hz'
        · omega
        · exact hb z hz'
      · exact List.Chain.cons h2 hc
    · rw [if_neg hcmp]
      obtain ⟨hb, hc⟩ := ih y hy hys
      constructor
      · intro z hz
        rcases List.mem_cons.mp hz with hz' | hz'
        · omega
        · exact hb z hz'
      · exact List.Chain.cons (le_of_not_le hcmp) hc

/-- The full monotonicity-enforcement pass on inputs bounded by `last` yields
a bounded, non-decreasing sequence. -/
theorem enforceMonotone_spec (last : ℕ) (l : List ℕ) (hl : ∀ y ∈ l, y ≤ last) :
    (∀ z ∈ enforceMonotone last l, z ≤ last) ∧
    List.Chain' (· ≤ ·) (enforceMonotone last l) := by
  cases l with
  | nil => simp [enforceMonotone]
  | cons x xs =>
    have hx : x ≤ last := hl x (List.mem_cons_self x xs)
    have hxs : ∀ y ∈ xs, y ≤ last := fun y hy => hl y (List.mem_cons_of_mem x hy)
    obtain ⟨hb, hc⟩ := enforceFrom_spec last xs x hx hxs
    simp only [enforceMonotone]
    constructor
    · intro z hz
      rcases List.mem_cons.mp hz with hz' | hz'
      · omega
      · exact hb z hz'
    · exact hc

/-- The final clamp is the identity on sequences already bounded by
`n - 1` (with `n ≥ 1`), exactly the defensive no-op the source keeps. -/
theorem clampLast_of_bounded (n : ℕ) (l : List ℕ) (hn : 1 ≤ n)
    (h : ∀ z ∈ l, z ≤ n - 1) : clampLast n l = l := by
  unfold clampLast
  cases hlast : l.getLast? with
  | none => rfl
  | some k =>
    have hk : k ∈ l := by
      obtain ⟨hne2, hx⟩ := List.mem_getLast?_eq_getLast (Option.mem_def.mpr hlast)
      rw [hx]
      exact List.getLast_mem hne2
    have := h k hk
    show (if n ≤ k then l.dropLast ++ [n - 1] else l) = l
    rw [if_neg (by omega)]

/-- The enforced projected index sequence is non-decreasing and bounded by the
last polyline index, for any nonempty polyline and any marker list. -/
theorem enforcedIndices_spec (rc : List Point) (markers : List Marker)
    (hrc : 1 ≤ rc.length) :
    List.Chain' (· ≤ ·) (enforcedIndices rc markers) ∧
    (∀ z ∈ enforcedIndices rc markers, z ≤ rc.length - 1) := by
  have hne : rc ≠ [] := by
    intro h
    subst h
    simp at hrc
  have hbound : ∀ y ∈ markers.map (fun m => findClosestRouteIndex rc m.coords),
      y ≤ rc.length - 1 := by
    intro y hy
    obtain ⟨m, _, hm⟩ := List.mem_map.mp hy
    have h1 := (findClosestRouteIndex_spec rc m.coords hne).1
    omega
  obtain ⟨hb, hc⟩ := enforceMonotone_spec (rc.length - 1) _ hbound
  unfold enforcedIndices
  rw [clampLast_of_bounded rc.length _ hrc hb]
  exact ⟨hc, hb⟩

/-- Characterization of segment emission: `segmentAt` returns `some s` exactly
when the source's guards pass, and then `s` is the inclusive slice tagged with
the day of the departing stop. -/
theorem segmentAt_some {rc : List Point} {sd : List ℤ} {idxs : List ℕ} {i : ℕ}
    {s : RouteSegment} (h : segmentAt rc sd idxs i = some s) :
    idxs.getD i 0 < idxs.getD (i + 1) 0 ∧ idxs.getD i 0 < rc.length ∧
    s.coords = (rc.drop (idxs.getD i 0)).take (idxs.getD (i + 1) 0 - idxs.getD i 0 + 1) ∧
    2 ≤ s.coords.length ∧ s.day = dayFor sd i := by
  unfold segmentAt at h
  by_cases h1 : idxs.getD i 0 < idxs.getD (i + 1) 0 ∧ idxs.getD i 0 < rc.length
  · rw [if_pos h1] at h
    by_cases h2 : 2 ≤ ((rc.drop (idxs.getD i 0)).take
        (idxs.getD (i + 1) 0 - idxs.getD i 0 + 1)).length
    · rw [if_pos h2] at h
      have hs := Option.some.inj h
      refine ⟨h1.1, h1.2, ?_, ?_, ?_⟩
      · rw [← hs]
      · rw [← hs]; exact h2
      · rw [← hs]
    · rw [if_neg h2] at h
      exact absurd h (by simp)
  · rw [if_neg h1] at h
    exact absurd h (by simp)

/-- `segmentAt` only emits when the pair index is in range. -/
theorem segmentAt_some_lt {rc : List Point} {sd : List ℤ} {idxs : List ℕ} {i : ℕ}
    {s : RouteSegment} (h : segmentAt rc sd idxs i = some s) : i + 1 < idxs.length := by
  have h1 := (segmentAt_some h).1
  by_contra hge
  have : idxs.getD (i + 1) 0 = 0 := by
    apply List.getD_eq_default
    omega
  omega

/-- The last element of the inclusive slice `drop a / take (k + 1)` is the
vertex at index `a + k`. -/
theorem getLast_dropTake {T : Type} (l : List T) (a k : ℕ) (h : a + k < l.length) :
    ((l.drop a).take (k + 1)).getLast? = l[a + k]? := by
  have hlen : ((l.drop a).take (k + 1)).length = k + 1 := by
    simp only [List.length_take, List.length_drop]
    omega
  rw [List.getLast?_eq_getElem?, hlen]
  simp only [Nat.add_sub_cancel]
  rw [List.getElem?_take, if_pos (by omega : k < k + 1), List.getElem?_drop]

/-- The first element of the inclusive slice `drop a / take (k + 1)` is the
vertex at index `a`. -/
theorem head_dropTake {T : Type} (l : List T) (a k : ℕ) :
    ((l.drop a).take (k + 1)).head? = l[a]? := by
  rw [List.head?_eq_getElem?, List.getElem?_take, if_pos (by omega : 0 < k + 1),
    List.getElem?_drop, Nat.add_zero]

/-- The closest `poly10` vertex to the first stop `(0,0)` is vertex 0. -/
theorem closest_poly10_stop0 : findClosestRouteIndex poly10 ((0:ℝ), (0:ℝ)) = 0 := by
  apply findClosestRouteIndex_eq_of
  · show (0:ℕ) < poly10.length
    simp [poly10]
  · intro j hj
    have hk : poly10.getD 0 default = ((0:ℝ), (0:ℝ)) := rfl
    rw [hk, distanceMeters_self]
    exact distanceMeters_nonneg _ _
  · intro j hj
    omega

/-- The closest `poly10` vertex to the second stop `(0,4)` is vertex 4. -/
theorem closest_poly10_stop1 : findClosestRouteIndex poly10 ((0:ℝ), (4:ℝ)) = 4 := by
  apply findClosestRouteIndex_eq_of
  · show (4:ℕ) < poly10.length
    simp [poly10]
  · intro j hj
    have hk : poly10.getD 4 default = ((0:ℝ), (4:ℝ)) := rfl
    rw [hk, distanceMeters_self]
    exact distanceMeters_nonneg _ _
  · intro j hj
    have hk : poly10.getD 4 default = ((0:ℝ), (4:ℝ)) := rfl
    rw [hk, distanceMeters_self]
    interval_cases j <;>
      exact distanceMeters_pos_lat (by norm_num) (by norm_num)

/-- The closest `poly10` vertex to the third stop `(0,9)` is vertex 9. -/
theorem closest_poly10_stop2 : findClosestRouteIndex poly10 ((0:ℝ), (9:ℝ)) = 9 := by
  apply findClosestRouteIndex_eq_of
  · show (9:ℕ) < poly10.length
    simp [poly10]
  · intro j hj
    have hk : poly10.getD 9 default = ((0:ℝ), (9:ℝ)) := rfl
    rw [hk, distanceMeters_self]
    exact distanceMeters_nonneg _ _
  · intro j hj
    have hk : poly10.getD 9 default = ((0:ℝ), (9:ℝ)) := rfl
    rw [hk, distanceMeters_self]
    interval_cases j <;>
      exact distanceMeters_pos_lat (by norm_num) (by norm_num)

/-- On the spec's round-trip scenario the enforced projected indices are
exactly `[0, 4, 9]` (projection is already strictly increasing, so both the
enforcement pass and the final clamp are no-ops). -/
theorem enforced_poly10 : enforcedIndices poly10 stops3 = [0, 4, 9] := by
  unfold enforcedIndices
  have h : stops3.map (fun m => findClosestRouteIndex poly10 m.coords) = [0, 4, 9] := by
    simp only [stops3, List.map_cons, List.map_nil]
    rw [closest_poly10_stop0, closest_poly10_stop1, closest_poly10_stop2]
  rw [h]
  rfl

/-- Evaluation of the partitioner on the spec's round-trip scenario: two
segments are emitted, spanning vertices 0–4 and 4–9, and BOTH carry day 1,
because the segment between stops `i` and `i+1` is tagged with
`stopDays[i]` (the departing stop's day), and `stopDays = [1, 1, 2]`. -/
theorem scenario_eval : getRouteSegmentsByDay poly10 stops3 scenDays =
    [⟨[((0:ℝ), (0:ℝ)), (0, 1), (0, 2), (0, 3), (0, 4)], 1⟩,
     ⟨[((0:ℝ), (4:ℝ)), (0, 5), (0, 6), (0, 7), (0, 8), (0, 9)], 1⟩] := by
  unfold getRouteSegmentsByDay
  rw [if_neg (by simp [poly10, stops3])]
  rw [enforced_poly10]
  rfl

/-- Both stops of `stopsSame` project to the last vertex of `poly2`. -/
theorem closest_poly2 : findClosestRouteIndex poly2 ((0:ℝ), (1:ℝ)) = 1 := by
  apply findClosestRouteIndex_eq_of
  · show (1:ℕ) < poly2.length
    simp [poly2]
  · intro j hj
    have hk : poly2.getD 1 default = ((0:ℝ), (1:ℝ)) := rfl
    rw [hk, distanceMeters_self]
    exact distanceMeters_nonneg _ _
  · intro j hj
    have hk : poly2.getD 1 default = ((0:ℝ), (1:ℝ)) := rfl
    rw [hk, distanceMeters_self]
    interval_cases j
    exact distanceMeters_pos_lat (by norm_num) (by norm_num)

/-- On `poly2`/`stopsSame` the enforced indices are `[1, 1]`: the second
projection ties with the first and is clamped to the last polyline index. -/
theorem enforced_poly2 : enforcedIndices poly2 stopsSame = [1, 1] := by
  unfold enforcedIndices
  have h : stopsSame.map (fun m => findClosestRouteIndex poly2 m.coords) = [1, 1] := by
    simp only [stopsSame, List.map_cons, List.map_nil]
    rw [closest_poly2]
  rw [h]
  rfl

/-- Specification of the source's scan pattern `best = 0; for i in 1..`:
starting the running-minimum scan over `rest` from accumulator `(0, f c)`
returns the position, in `c :: rest`, of the first element minimizing `f`. -/
theorem scanFrom1_spec {T : Type} (f : T → ℝ) (c : T) (rest : List T) :
    (scanMinFrom f rest 1 0 (f c)).1 < rest.length + 1 ∧
    (∀ j, j < rest.length + 1 →
      f ((c :: rest).getD (scanMinFrom f rest 1 0 (f c)).1 c) ≤ f ((c :: rest).getD j c)) ∧
    (∀ j, j < (scanMinFrom f rest 1 0 (f c)).1 →
      f ((c :: rest).getD (scanMinFrom f rest 1 0 (f c)).1 c) < f ((c :: rest).getD j c)) := by
  have h := scanMinFrom_spec f c (c :: rest) rest 1 0 (f c) (by simp) (by omega)
    (by simp) (by simp) (by intro j hj _; interval_cases j; simp) (by omega)
  have hlen : (c :: rest).length = rest.length + 1 := by simp
  rw [hlen] at h
  refine ⟨h.1, fun j hj => ?_, fun j hj => ?_⟩
  · have := h.2.2.1 j hj
    rw [h.2.1] at this
    exact this
  · have := h.2.2.2 j hj
    rw [h.2.1] at this
    exact this

/-- Removing the element at a valid index and re-consing it yields a
permutation of the original list. -/
theorem getD_cons_eraseIdx_perm {T : Type} :
    ∀ (l : List T) (i : ℕ) (d : T), i < l.length →
      List.Perm (l.getD i d :: l.eraseIdx i) l := by
  intro l
  induction l with
  | nil => intro i d h; simp at h
  | cons x xs ih =>
    intro i d h
    cases i with
    | zero => simp
    | succ i =>
      have hi : i < xs.length := by simpa using h
      have hperm := ih i d hi
      have h1 : ((x :: xs).getD (i + 1) d :: (x :: xs).eraseIdx (i + 1))
          = (xs.getD i d :: x :: xs.eraseIdx i) := by
        simp [List.getD_cons_succ, List.eraseIdx_cons_succ]
      rw [h1]
      exact List.Perm.trans (List.Perm.swap x (xs.getD i d) _) (List.Perm.cons x hperm)

/-- The greedy selection loop returns a permutation of its remaining pool
whenever it is given enough fuel. -/
theorem orderLoopFuel_perm {T : Type} (coords : T → Point) :
    ∀ (n : ℕ) (current : Point) (remaining : List T), remaining.length ≤ n →
      List.Perm (orderLoopFuel coords n current remaining) remaining := by
  intro n
  induction n with
  | zero =>
    intro current remaining h
    have : remaining = [] := List.eq_nil_of_length_eq_zero (by omega)
    subst this
    simp [orderLoopFuel]
  | succ n ih =>
    intro current remaining h
    match remaining with
    | [] => simp [orderLoopFuel]
    | r0 :: rs =>
      have hbi := (scanFrom1_spec (fun t => distanceMeters current (coords t)) r0 rs).1
      simp only [orderLoopFuel]
      simp only [List.length_cons] at h
      generalize hB : (scanMinFrom (fun t => distanceMeters current (coords t)) rs 1 0
        (distanceMeters current (coords r0))).1 = bi at hbi ⊢
      have hbi2 : bi < (r0 :: rs).length := by
        simp only [List.length_cons]
        omega
      have herase : ((r0 :: rs).eraseIdx bi).length = rs.length := by
        rw [List.length_eraseIdx_of_lt hbi2]
        simp
      have hrec := ih (coords ((r0 :: rs).getD bi r0)) ((r0 :: rs).eraseIdx bi)
        (by omega)
      exact List.Perm.trans (List.Perm.cons _ hrec) (getD_cons_eraseIdx_perm (r0 :: rs) bi r0 hbi2)

/-- The sequencer's output is a permutation of its input. -/
theorem orderByNearestFromStart_perm {T : Type} (coords : T → Point) (items : List T) :
    List.Perm (orderByNearestFromStart coords items) items := by
  unfold orderByNearestFromStart
  by_cases h : items.length ≤ 2
  · rw [if_pos h]
  · rw [if_neg h]
    match items with
    | [] => simp
    | start :: rest =>
      exact List.Perm.cons start (orderLoopFuel_perm coords rest.length _ rest le_rfl)

/-- With no day assignment, `dayFor` is the default formula. -/
theorem dayFor_nil (i : ℕ) : dayFor [] i = (((i / STOPS_PER_DAY : ℕ) : ℤ) + 1) := rfl

/-- On the assignment filled with the default formula, `dayFor` is the default
formula at every in-range index. -/
theorem dayFor_defaultDayAssignment (n i : ℕ) (h : i < n) :
    dayFor (defaultDayAssignment n) i = (((i / STOPS_PER_DAY : ℕ) : ℤ) + 1) := by
  unfold dayFor defaultDayAssignment
  rw [List.getD_eq_getElem?_getD, List.getElem?_map, List.getElem?_range h]
  rfl

/-- C1. The spec's round-trip scenario claims the partitioner returns a
segment over vertices 0–4 tagged day 1 and a segment over vertices 4–9 tagged
day 2. The code returns day 1 for BOTH segments, because the segment between
stops `i` and `i+1` is tagged with `stopDays[i]` (the departing stop's day)
and `stopDays[1] = 1`; so the claimed output is not the computed output. -/
theorem c1_counterexample : getRouteSegmentsByDay poly10 stops3 scenDays ≠
    [⟨[((0:ℝ), (0:ℝ)), (0, 1), (0, 2), (0, 3), (0, 4)], 1⟩,
     ⟨[((0:ℝ), (4:ℝ)), (0, 5), (0, 6), (0, 7), (0, 8), (0, 9)], 2⟩] := by
  rw [scenario_eval]
  intro h
  have hd := congrArg (List.map RouteSegment.day) h
  simp at hd

/-- C1 (amended). On the round-trip scenario the partitioner returns exactly
2 segments, one covering polyline indices 0 through 4 inclusive and one
covering indices 4 through 9 inclusive, and BOTH are tagged day 1: the
partitioner tags the segment between stops `i` and `i+1` with stop `i`'s
day, and the day assignment gives stop 1 the day 1. -/
theorem c1_amended : getRouteSegmentsByDay poly10 stops3 scenDays =
    [⟨[((0:ℝ), (0:ℝ)), (0, 1), (0, 2), (0, 3), (0, 4)], 1⟩,
     ⟨[((0:ℝ), (4:ℝ)), (0, 5), (0, 6), (0, 7), (0, 8), (0, 9)], 1⟩] :=
  scenario_eval

/-- C2. For every pair of input points the haversine intermediate value `x`
provably stays within `[0, 1]` (so both square-root arguments are
nonnegative), and `distanceMeters` — which is exactly
`2R·atan2(√x, √(1-x))` — is a total, nonnegative real; in the real-valued
model it can neither throw nor produce an undefined value. -/
theorem c2_haversine_x_in_unit_interval (a b : Point) :
    0 ≤ haversineX a b ∧ haversineX a b ≤ 1 ∧
    distanceMeters a b =
      2 * 6371000 * atan2 (Real.sqrt (haversineX a b))
        (Real.sqrt (1 - haversineX a b)) ∧
    0 ≤ distanceMeters a b :=
  ⟨haversineX_nonneg a b, haversineX_le_one a b, rfl, distanceMeters_nonneg a b⟩

/-- C3. For every polyline accepted by the partitioner's guard (≥ 2 points)
and every stop list, the enforced projected index sequence is monotonically
non-decreasing in stop order and every enforced index is at most the last
polyline index. -/
theorem c3_enforced_indices_monotone (rc : List Point) (markers : List Marker)
    (hrc : 2 ≤ rc.length) :
    List.Chain' (· ≤ ·) (enforcedIndices rc markers) ∧
    (∀ z ∈ enforcedIndices rc markers, z ≤ rc.length - 1) :=
  enforcedIndices_spec rc markers (by omega)

/-- Witness for C3 at the round-trip scenario input. -/
theorem c3_enforced_indices_monotone_witness :
    List.Chain' (· ≤ ·) (enforcedIndices poly10 stops3) ∧
    (∀ z ∈ enforcedIndices poly10 stops3, z ≤ poly10.length - 1) :=
  c3_enforced_indices_monotone poly10 stops3 (by norm_num [poly10])

/-- C4. Every segment returned by the partitioner contains at least 2
points. -/
theorem c4_segment_min_points (rc : List Point) (markers : List Marker) (sd : List ℤ)
    (seg : RouteSegment) (h : seg ∈ getRouteSegmentsByDay rc markers sd) :
    2 ≤ seg.coords.length := by
  unfold getRouteSegmentsByDay at h
  by_cases hg : rc.length < 2 ∨ markers.length < 2
  · rw [if_pos hg] at h
    simp at h
  · rw [if_neg hg] at h
    obtain ⟨i, _, hi⟩ := List.mem_filterMap.mp h
    exact (segmentAt_some hi).2.2.2.1

/-- Witness for C4: the first segment emitted on the round-trip scenario. -/
theorem c4_segment_min_points_witness :
    2 ≤ (⟨[((0:ℝ), (0:ℝ)), (0, 1), (0, 2), (0, 3), (0, 4)], 1⟩ : RouteSegment).coords.length :=
  c4_segment_min_points poly10 stops3 scenDays _
    (by rw [scenario_eval]; exact List.mem_cons_self _ _)

/-- C5. The sequencer returns its input unchanged for inputs of length ≤ 2;
otherwise its output is a permutation of the input of the same length whose
first element is the first input element, and every loop step appends the
not-yet-placed item at minimum distance from the current point (first minimal
index on ties) and recurses on the pool with exactly that item removed. -/
theorem c5_sequencer_greedy {T : Type} (coords : T → Point) (items : List T) :
    (items.length ≤ 2 → orderByNearestFromStart coords items = items) ∧
    List.Perm (orderByNearestFromStart coords items) items ∧
    (orderByNearestFromStart coords items).length = items.length ∧
    (orderByNearestFromStart coords items).head? = items.head? ∧
    (∀ (current : Point) (r0 : T) (rs : List T) (n : ℕ),
      ∃ k, k < (r0 :: rs).length ∧
        orderLoopFuel coords (n + 1) current (r0 :: rs)
          = (r0 :: rs).getD k r0 ::
              orderLoopFuel coords n (coords ((r0 :: rs).getD k r0)) ((r0 :: rs).eraseIdx k) ∧
        (∀ j, j < (r0 :: rs).length →
          distanceMeters current (coords ((r0 :: rs).getD k r0))
            ≤ distanceMeters current (coords ((r0 :: rs).getD j r0))) ∧
        (∀ j, j < k →
          distanceMeters current (coords ((r0 :: rs).getD k r0))
            < distanceMeters current (coords ((r0 :: rs).getD j r0)))) := by
  refine ⟨?_, orderByNearestFromStart_perm coords items,
    (orderByNearestFromStart_perm coords items).length_eq, ?_, ?_⟩
  · intro h
    unfold orderByNearestFromStart
    rw [if_pos h]
  · unfold orderByNearestFromStart
    by_cases h : items.length ≤ 2
    · rw [if_pos h]
    · rw [if_neg h]
      match items with
      | [] => simp
      | start :: rest => simp
  · intro current r0 rs n
    have hspec := scanFrom1_spec (fun t => distanceMeters current (coords t)) r0 rs
    refine ⟨(scanMinFrom (fun t => distanceMeters current (coords t)) rs 1 0
      (distanceMeters current (coords r0))).1, by simpa using hspec.1, rfl, ?_, ?_⟩
    · intro j hj
      have := hspec.2.1 j (by simpa using hj)
      simpa using this
    · intro j hj
      have := hspec.2.2 j hj
      simpa using this

/-- Witness for C5 at a concrete two-element input (and, through the other
conjuncts, the scenario stops). -/
theorem c5_sequencer_greedy_witness :
    orderByNearestFromStart Marker.coords stopsSame = stopsSame :=
  (c5_sequencer_greedy Marker.coords stopsSame).1 (by norm_num [stopsSame])

/-- C6. On a nonempty polyline `findClosestRouteIndex` returns the lowest
index of a vertex achieving the minimum distance to the query point (it is a
minimum, and it strictly beats every earlier vertex); on an empty polyline it
returns 0. -/
theorem c6_closest_index_first_argmin (rc : List Point) (p : Point) :
    (rc = [] → findClosestRouteIndex rc p = 0) ∧
    (rc ≠ [] →
      findClosestRouteIndex rc p < rc.length ∧
      (∀ j, j < rc.length →
        distanceMeters (rc.getD (findClosestRouteIndex rc p) default) p ≤
          distanceMeters (rc.getD j default) p) ∧
      (∀ j, j < findClosestRouteIndex rc p →
        distanceMeters (rc.getD (findClosestRouteIndex rc p) default) p <
          distanceMeters (rc.getD j default) p)) :=
  ⟨fun h => by subst h; rfl, fun hne => findClosestRouteIndex_spec rc p hne⟩

/-- Witness for C6 at the scenario's middle stop. -/
theorem c6_closest_index_first_argmin_witness :
    findClosestRouteIndex poly10 ((0:ℝ), (4:ℝ)) < poly10.length ∧
    (∀ j, j < poly10.length →
      distanceMeters (poly10.getD (findClosestRouteIndex poly10 ((0:ℝ), (4:ℝ))) default)
          ((0:ℝ), (4:ℝ)) ≤
        distanceMeters (poly10.getD j default) ((0:ℝ), (4:ℝ))) ∧
    (∀ j, j < findClosestRouteIndex poly10 ((0:ℝ), (4:ℝ)) →
      distanceMeters (poly10.getD (findClosestRouteIndex poly10 ((0:ℝ), (4:ℝ))) default)
          ((0:ℝ), (4:ℝ)) <
        distanceMeters (poly10.getD j default) ((0:ℝ), (4:ℝ))) :=
  (c6_closest_index_first_argmin poly10 ((0:ℝ), (4:ℝ))).2 (by simp [poly10])

/-- C7. With a polyline of fewer than 2 points or fewer than 2 stops the
partitioner returns the empty list (and, being a total function, never
raises). -/
theorem c7_degenerate_empty (rc : List Point) (markers : List Marker) (sd : List ℤ)
    (h : rc.length < 2 ∨ markers.length < 2) :
    getRouteSegmentsByDay rc markers sd = [] := by
  unfold getRouteSegmentsByDay
  rw [if_pos h]

/-- Witness for C7 on entirely empty input. -/
theorem c7_degenerate_empty_witness : getRouteSegmentsByDay [] [] [] = [] :=
  c7_degenerate_empty [] [] [] (Or.inl (by simp))

/-- C8. Partitioning with the explicit day assignment
`i ↦ floor(i / STOPS_PER_DAY) + 1` for every stop index is identical to
partitioning with no day assignment supplied. -/
theorem c8_default_assignment_idempotent (rc : List Point) (markers : List Marker) :
    getRouteSegmentsByDay rc markers (defaultDayAssignment markers.length) =
      getRouteSegmentsByDay rc markers [] := by
  unfold getRouteSegmentsByDay
  by_cases hg : rc.length < 2 ∨ markers.length < 2
  · rw [if_pos hg, if_pos hg]
  · rw [if_neg hg, if_neg hg]
    apply List.filterMap_congr
    intro i hi
    have hin : i < markers.length := by
      have := List.mem_range.mp hi
      omega
    unfold segmentAt
    rw [dayFor_defaultDayAssignment markers.length i hin, dayFor_nil]

/-- C9. Whenever the partitioner emits segments for two consecutive stop
pairs, both emitted segments belong to the returned list, the last coordinate
of the earlier one equals the first coordinate of the later one, and both are
the polyline vertex at the enforced index of the shared middle stop. -/
theorem c9_consecutive_segments_contiguous (rc : List Point) (markers : List Marker)
    (sd : List ℤ) (i : ℕ) (s t : RouteSegment)
    (hrc : 2 ≤ rc.length) (hm : 2 ≤ markers.length)
    (hs : segmentAt rc sd (enforcedIndices rc markers) i = some s)
    (ht : segmentAt rc sd (enforcedIndices rc markers) (i + 1) = some t) :
    s ∈ getRouteSegmentsByDay rc markers sd ∧
    t ∈ getRouteSegmentsByDay rc markers sd ∧
    s.coords.getLast? = t.coords.head? ∧
    s.coords.getLast? = rc[(enforcedIndices rc markers).getD (i + 1) 0]? := by
  obtain ⟨hab, haL, hsc, hs2, _⟩ := segmentAt_some hs
  obtain ⟨hbc, hbL, htc, ht2, _⟩ := segmentAt_some ht
  have hilt := segmentAt_some_lt hs
  have hilt2 := segmentAt_some_lt ht
  have hlen := enforcedIndices_length rc markers
  have hguard : ¬(rc.length < 2 ∨ markers.length < 2) := by omega
  have hmem_s : s ∈ getRouteSegmentsByDay rc markers sd := by
    unfold getRouteSegmentsByDay
    rw [if_neg hguard]
    exact List.mem_filterMap.mpr ⟨i, List.mem_range.mpr (by omega), hs⟩
  have hmem_t : t ∈ getRouteSegmentsByDay rc markers sd := by
    unfold getRouteSegmentsByDay
    rw [if_neg hguard]
    exact List.mem_filterMap.mpr ⟨i + 1, List.mem_range.mpr (by omega), ht⟩
  have hslast : s.coords.getLast? =
      rc[(enforcedIndices rc markers).getD (i + 1) 0]? := by
    rw [hsc]
    have h1 := getLast_dropTake rc ((enforcedIndices rc markers).getD i 0)
      ((enforcedIndices rc markers).getD (i + 1) 0 - (enforcedIndices rc markers).getD i 0)
      (by omega)
    rw [h1, show (enforcedIndices rc markers).getD i 0 +
      ((enforcedIndices rc markers).getD (i + 1) 0 - (enforcedIndices rc markers).getD i 0)
      = (enforcedIndices rc markers).getD (i + 1) 0 from by omega]
  have hthead : t.coords.head? =
      rc[(enforcedIndices rc markers).getD (i + 1) 0]? := by
    rw [htc]
    exact head_dropTake rc _ _
  exact ⟨hmem_s, hmem_t, hslast.trans hthead.symm, hslast⟩

/-- Witness for C9 at the round-trip scenario, pair index 0. -/
theorem c9_consecutive_segments_contiguous_witness :
    (⟨[((0:ℝ), (0:ℝ)), (0, 1), (0, 2), (0, 3), (0, 4)], 1⟩ : RouteSegment).coords.getLast? =
      (⟨[((0:ℝ), (4:ℝ)), (0, 5), (0, 6), (0, 7), (0, 8), (0, 9)], 1⟩ :
        RouteSegment).coords.head? :=
  (c9_consecutive_segments_contiguous poly10 stops3 scenDays 0 _ _
    (by norm_num [poly10]) (by norm_num [stops3])
    (by rw [enforced_poly10]; rfl) (by rw [enforced_poly10]; rfl)).2.2.1

/-- C10. A polyline of 2 points with 2 stops both projecting to the last
vertex yields an empty segment list: the degenerate-input guard conditions
are sufficient but not necessary for an empty result. -/
theorem c10_empty_without_degenerate_guard :
    2 ≤ poly2.length ∧ 2 ≤ stopsSame.length ∧
    enforcedIndices poly2 stopsSame = [1, 1] ∧
    getRouteSegmentsByDay poly2 stopsSame [] = [] := by
  refine ⟨by norm_num [poly2], by norm_num [stopsSame], enforced_poly2, ?_⟩
  unfold getRouteSegmentsByDay
  rw [if_neg (by norm_num [poly2, stopsSame])]
  rw [enforced_poly2]
  rfl

end RouteCore
